import Mathlib

/-!
# Verification of `treeduction` (dynamically-growing binary combination tree)

Shallow embedding of `src/treeduction.go`.  A (finite, eventually-closed) Go
channel is modelled by the `List` of all values it ever carries, in FIFO
order.  The two combiner-node goroutines become pure functions on lists
(`lockstep` for `orderedNode`, `pairOff` over a nondeterministic fan-in
interleaving `Merge` for `unorderedNode`); the level-slot table of
`tree.roots` becomes a `List (Option _)`; the `Add`/`addOne`/`Finish` control
flow becomes run relations and functions below, each annotated with the Go
lines it embeds.
-/

namespace Treeduction

variable {T : Type} {σ : Type} {α : Type} {β : Type}

/-- Embedding of `orderedNode` (treeduction.go lines 199-220): read one value
from `f`, then one from `s`, combine, emit; if `f` ends first nothing further
is emitted; if `f` yields a value but `s` has ended, that value is emitted raw
and the loop exits (any later values of `f` are never read). -/
def lockstep (g : α → α → α) : List α → List α → List α
  | [], _ => []
  | v1 :: _, [] => [v1]
  | v1 :: f, v2 :: s => g v1 v2 :: lockstep g f s

/-- Embedding of the pairing loop of `unorderedNode` (treeduction.go lines
179-191): draw two values from the fan-in pool, combine, emit; if the draw for
the second value finds the pool closed, emit the first value as-is. -/
def pairOff (g : α → α → α) : List α → List α
  | [] => []
  | [v] => [v]
  | v1 :: v2 :: rest => g v1 v2 :: pairOff g rest

/-- `Merge f s m` holds when `m` is an order-preserving interleaving of the
two lists `f` and `s`.  This is the set of possible contents of the `fanIn`
channel of `unorderedNode` (treeduction.go lines 157-177), where two goroutines
forward `f` and `s` concurrently into one channel; it also describes how two
concurrent readers of one channel split its content into complementary
subsequences. -/
inductive Merge : List α → List α → List α → Prop
  | nil : Merge [] [] []
  | left {f s m : List α} (a : α) : Merge f s m → Merge (a :: f) s (a :: m)
  | right {f s m : List α} (b : α) : Merge f s m → Merge f (b :: s) (b :: m)

/-- Two-step structural induction principle matching the recursion pattern of
`pairOff`. -/
theorem twoStepInduction {P : List α → Prop} (h0 : P []) (h1 : ∀ v, P [v])
    (h2 : ∀ v w l, P l → P (v :: w :: l)) : ∀ l, P l
  | [] => h0
  | [v] => h1 v
  | v :: w :: l => h2 v w l (twoStepInduction h0 h1 h2 l)

theorem lockstep_eq (g : α → α → α) :
    ∀ f s : List α, lockstep g f s = List.zipWith g f s ++ (f.drop s.length).take 1
  | [], _ => by simp [lockstep]
  | v1 :: f, [] => by simp [lockstep]
  | v1 :: f, v2 :: s => by
    simp only [lockstep, List.zipWith, List.length_cons, List.drop_succ_cons,
      List.cons_append]
    rw [lockstep_eq g f s]

theorem Merge.perm {f s m : List α} (h : Merge f s m) : List.Perm m (f ++ s) := by
  induction h with
  | nil => exact List.Perm.refl _
  | left a _ ih => exact ih.cons a
  | right b _ ih => exact ((ih.cons b).trans List.perm_middle.symm)

theorem Merge.length_eq {f s m : List α} (h : Merge f s m) :
    m.length = f.length + s.length := by
  simpa using h.perm.length_eq

/-- The trivial interleaving: first all of `f`, then all of `s`. -/
theorem Merge.append (f s : List α) : Merge f s (f ++ s) := by
  induction f with
  | nil =>
    induction s with
    | nil => exact .nil
    | cons b s ih => exact .right b ih
  | cons a f ih => exact .left a ih

theorem pairOff_length (g : α → α → α) :
    ∀ m : List α, (pairOff g m).length = (m.length + 1) / 2 := by
  refine twoStepInduction ?_ ?_ ?_
  · simp [pairOff]
  · intro v; simp [pairOff]
  · intro v w l ih
    simp only [pairOff, List.length_cons, ih]
    omega

theorem pairOff_decomposition (g : α → α → α) :
    ∀ m : List α, ∃ (pairs : List (α × α)) (rest : List α),
      pairOff g m = pairs.map (fun p => g p.1 p.2) ++ rest ∧
      pairs.flatMap (fun p => [p.1, p.2]) ++ rest = m ∧
      rest.length = m.length % 2 := by
  refine twoStepInduction ?_ ?_ ?_
  · exact ⟨[], [], by simp [pairOff]⟩
  · intro v; exact ⟨[], [v], by simp [pairOff]⟩
  · intro v w l ih
    obtain ⟨pairs, rest, h1, h2, h3⟩ := ih
    refine ⟨(v, w) :: pairs, rest, ?_, ?_, ?_⟩
    · simp [pairOff, h1]
    · simp [h2]
    · simp only [List.length_cons]; omega

/-! ## Level slot table (`tree.roots`) and the placement algorithm `addOne` -/

/-- Embedding of the slice-extension loop of `addOne` (treeduction.go lines
133-136): append `nil` entries until index `level` exists. -/
def extend (tbl : List (Option σ)) (level : Nat) : List (Option σ) :=
  tbl ++ List.replicate (level + 1 - tbl.length) none

/-- `occ tbl i` — whether slot `i` of the level slot table holds a pending
stream (`t.roots[i] != nil`); indices past the end count as unoccupied. -/
def occ (tbl : List (Option σ)) (i : Nat) : Bool :=
  (tbl[i]?.getD none).isSome

/-- Number of occupied slots; termination measure for `addOne`. -/
def occCount (tbl : List (Option σ)) : Nat :=
  tbl.countP (fun o => o.isSome)

theorem extend_length (tbl : List (Option σ)) (level : Nat) :
    level < (extend tbl level).length := by
  simp only [extend, List.length_append, List.length_replicate]
  omega

theorem occCount_extend (tbl : List (Option σ)) (n : Nat) :
    occCount (extend tbl n) = occCount tbl := by
  simp only [occCount, extend, List.countP_append]
  have : (List.replicate (n + 1 - tbl.length) (none : Option σ)).countP
      (fun o => o.isSome) = 0 := by
    apply List.countP_eq_zero.mpr
    intro a ha
    rw [List.eq_of_mem_replicate ha]
    simp
  omega

theorem occCount_set_none {tbl : List (Option σ)} {lvl : Nat} {x : σ}
    (h : tbl[lvl]? = some (some x)) :
    occCount (tbl.set lvl none) < occCount tbl := by
  induction tbl generalizing lvl with
  | nil => simp at h
  | cons hd tl ih =>
    cases lvl with
    | zero =>
      simp only [List.getElem?_cons_zero, Option.some.injEq] at h
      subst h
      simp [occCount, List.countP_cons]
    | succ n =>
      simp only [List.getElem?_cons_succ] at h
      have := ih h
      simp only [List.set_cons_succ, occCount, List.countP_cons] at *
      omega

/-- Embedding of `addOne` (treeduction.go lines 132-152): extend the table to
`level`; if the slot is free, store the stream there and stop; otherwise
remove the occupant, build a Combiner Node (`mk`) over the occupant and the
incoming stream, and recursively place the node's output at `level + 1`.  The
`none` lookup branch is unreachable (the table was just extended past
`level`). -/
def addOne (mk : σ → σ → σ) (tbl : List (Option σ)) (root : σ) (level : Nat) :
    List (Option σ) :=
  match h : (extend tbl level)[level]? with
  | none => extend tbl level
  | some none => (extend tbl level).set level (some root)
  | some (some prev) =>
      addOne mk ((extend tbl level).set level none) (mk prev root) (level + 1)
termination_by occCount tbl
decreasing_by
  rw [show occCount ((extend tbl level).set level none)
        < occCount tbl ↔
      occCount ((extend tbl level).set level none)
        < occCount (extend tbl level) by rw [occCount_extend]]
  exact occCount_set_none h

/-- The table after `Add`-ing each of `leaves` as a single depth-0 leaf stream
in sequence, starting from the freshly constructed table
(`make([]<-chan T, 20)`, treeduction.go line 31: twenty `nil` slots). -/
def addLeaves (mk : σ → σ → σ) (leaves : List σ) : List (Option σ) :=
  leaves.foldl (fun tbl v => addOne mk tbl v 0) (List.replicate 20 none)

theorem occ_extend (tbl : List (Option σ)) (n i : Nat) :
    occ (extend tbl n) i = occ tbl i := by
  unfold occ extend
  rw [List.getElem?_append]
  split
  · rfl
  · rename_i h
    rw [List.getElem?_eq_none (by omega : tbl.length ≤ i)]
    rcases Nat.lt_or_ge (i - tbl.length) (n + 1 - tbl.length) with hlt | hge
    · rw [List.getElem?_replicate, if_pos hlt]; rfl
    · rw [List.getElem?_eq_none (by simpa using hge)]

theorem occ_set (tbl : List (Option σ)) {lvl : Nat} (h : lvl < tbl.length)
    (o : Option σ) (i : Nat) :
    occ (tbl.set lvl o) i = if i = lvl then o.isSome else occ tbl i := by
  unfold occ
  rw [List.getElem?_set]
  by_cases hi : lvl = i
  · rw [if_pos hi, if_pos h, if_pos hi.symm]; rfl
  · rw [if_neg hi, if_neg (fun hh => hi hh.symm)]

theorem occ_replicate_none (n i : Nat) :
    occ (List.replicate n (none : Option σ)) i = false := by
  unfold occ
  rcases Nat.lt_or_ge i n with h | h
  · rw [List.getElem?_replicate, if_pos h]; rfl
  · rw [List.getElem?_eq_none (by simpa using h)]; rfl

/-- Unfolding of `addOne` when slot `level` is free (treeduction.go lines
138-141). -/
theorem addOne_of_free {tbl : List (Option σ)} {lvl : Nat} (mk : σ → σ → σ)
    (root : σ) (h : (extend tbl lvl)[lvl]? = some none) :
    addOne mk tbl root lvl = (extend tbl lvl).set lvl (some root) := by
  rw [addOne.eq_def]; split <;> simp_all

/-- Unfolding of `addOne` when slot `level` is occupied (treeduction.go lines
143-151). -/
theorem addOne_of_occupied {tbl : List (Option σ)} {lvl : Nat} {prev : σ}
    (mk : σ → σ → σ) (root : σ)
    (h : (extend tbl lvl)[lvl]? = some (some prev)) :
    addOne mk tbl root lvl
      = addOne mk ((extend tbl lvl).set lvl none) (mk prev root) (lvl + 1) := by
  rw [addOne.eq_def]; split <;> simp_all

/-- Adding `2 ^ l` to a number whose bit `l` is clear sets exactly bit `l`. -/
theorem testBit_add_two_pow (l : Nat) : ∀ k : Nat, k.testBit l = false →
    ∀ i, (k + 2 ^ l).testBit i = if i = l then true else k.testBit i := by
  induction l with
  | zero =>
    intro k hk i
    rw [Nat.testBit_zero] at hk
    have hk2 : k % 2 = 0 := by
      have := of_decide_eq_false hk; omega
    cases i with
    | zero =>
      rw [if_pos rfl]
      simp only [pow_zero, Nat.testBit_zero, decide_eq_true_eq]
      omega
    | succ j =>
      rw [if_neg (by omega : ¬ j + 1 = 0)]
      have hd : (k + 1) / 2 = k / 2 := by omega
      simp only [pow_zero, Nat.testBit_add_one, hd]
  | succ l ih =>
    intro k hk i
    rw [Nat.testBit_add_one] at hk
    have h2 : (2 : Nat) ^ (l + 1) = 2 ^ l * 2 := by ring
    cases i with
    | zero =>
      rw [if_neg (by omega : ¬ (0 : Nat) = l + 1)]
      have hm : (k + 2 ^ (l + 1)) % 2 = k % 2 := by rw [h2]; omega
      simp only [Nat.testBit_zero, hm]
    | succ j =>
      have hdiv : (k + 2 ^ (l + 1)) / 2 = k / 2 + 2 ^ l := by
        rw [h2, Nat.add_mul_div_right _ _ (by omega : (0 : Nat) < 2)]
      rw [Nat.testBit_add_one, hdiv, ih (k / 2) hk j, Nat.testBit_add_one]
      by_cases hj : j = l
      · rw [if_pos hj, if_pos (by omega)]
      · rw [if_neg hj, if_neg (by omega)]

/-- Subtracting `2 ^ l` from a number whose bit `l` is set clears exactly
bit `l`. -/
theorem testBit_sub_two_pow (l : Nat) : ∀ k : Nat, k.testBit l = true →
    ∀ i, (k - 2 ^ l).testBit i = if i = l then false else k.testBit i := by
  induction l with
  | zero =>
    intro k hk i
    rw [Nat.testBit_zero] at hk
    have hk2 : k % 2 = 1 := of_decide_eq_true hk
    cases i with
    | zero =>
      rw [if_pos rfl]
      simp only [pow_zero, Nat.testBit_zero, decide_eq_false_iff_not]
      omega
    | succ j =>
      rw [if_neg (by omega : ¬ j + 1 = 0)]
      have hd : (k - 1) / 2 = k / 2 := by omega
      simp only [pow_zero, Nat.testBit_add_one, hd]
  | succ l ih =>
    intro k hk i
    have hge : 2 ^ (l + 1) ≤ k := Nat.testBit_implies_ge hk
    rw [Nat.testBit_add_one] at hk
    have h2 : (2 : Nat) ^ (l + 1) = 2 ^ l * 2 := by ring
    cases i with
    | zero =>
      rw [if_neg (by omega : ¬ (0 : Nat) = l + 1)]
      have hm : (k - 2 ^ (l + 1)) % 2 = k % 2 := by rw [h2] at hge ⊢; omega
      simp only [Nat.testBit_zero, hm]
    | succ j =>
      have hdiv : (k - 2 ^ (l + 1)) / 2 = k / 2 - 2 ^ l := by
        rw [h2] at hge ⊢; omega
      rw [Nat.testBit_add_one, hdiv, ih (k / 2) hk j, Nat.testBit_add_one]
      by_cases hj : j = l
      · rw [if_pos hj, if_pos (by omega)]
      · rw [if_neg hj, if_neg (by omega)]

/-- Placing one stream at `lvl` in a table whose occupancy encodes the binary
number `k` yields the occupancy of `k + 2 ^ lvl`:  `addOne` is a binary-counter
increment with carries. -/
theorem occ_addOne (mk : σ → σ → σ) (tbl : List (Option σ)) (root : σ)
    (lvl : Nat) :
    ∀ k : Nat, (∀ i, occ tbl i = k.testBit i) →
    ∀ i, occ (addOne mk tbl root lvl) i = (k + 2 ^ lvl).testBit i := by
  induction tbl, root, lvl using addOne.induct mk with
  | case1 tbl root lvl h =>
    exact absurd h (by
      rw [List.getElem?_eq_getElem (extend_length tbl lvl)]
      simp)
  | case2 tbl root lvl h =>
    intro k hocc i
    have hkl : k.testBit lvl = false := by
      rw [← hocc lvl, ← occ_extend tbl lvl lvl]
      unfold occ; rw [h]; rfl
    rw [addOne_of_free mk root h,
      occ_set _ (extend_length tbl lvl) (some root) i,
      testBit_add_two_pow lvl k hkl i]
    by_cases hi : i = lvl
    · rw [if_pos hi, if_pos hi]; rfl
    · rw [if_neg hi, if_neg hi, occ_extend, hocc]
  | case3 tbl root lvl prev h ih =>
    intro k hocc i
    have hkl : k.testBit lvl = true := by
      rw [← hocc lvl, ← occ_extend tbl lvl lvl]
      unfold occ; rw [h]; rfl
    have hge : 2 ^ lvl ≤ k := Nat.testBit_implies_ge hkl
    rw [addOne_of_occupied mk root h]
    have hset : ∀ j, occ ((extend tbl lvl).set lvl none) j
        = (k - 2 ^ lvl).testBit j := by
      intro j
      rw [occ_set _ (extend_length tbl lvl) none j,
        testBit_sub_two_pow lvl k hkl j]
      by_cases hj : j = lvl
      · rw [if_pos hj, if_pos hj]; rfl
      · rw [if_neg hj, if_neg hj, occ_extend, hocc]
    rw [ih (k - 2 ^ lvl) hset i]
    congr 1
    have h2 : (2 : Nat) ^ (lvl + 1) = 2 ^ lvl * 2 := by ring
    omega

theorem occ_addLeaves_core (mk : σ → σ → σ) (leaves : List σ) :
    ∀ (tbl : List (Option σ)) (k : Nat), (∀ i, occ tbl i = k.testBit i) →
    ∀ i, occ (leaves.foldl (fun t v => addOne mk t v 0) tbl) i
      = (k + leaves.length).testBit i := by
  induction leaves with
  | nil =>
    intro tbl k h i
    simpa using h i
  | cons v leaves ih =>
    intro tbl k h i
    simp only [List.foldl_cons, List.length_cons]
    have h1 := occ_addOne mk tbl v 0 k h
    have h2 := ih (addOne mk tbl v 0) (k + 1)
      (by intro j; rw [h1 j]; norm_num)
    rw [h2 i]
    congr 1
    omega

/-- **C4.** `addOne(stream, level)` stores the stream at `level` when that
slot is free and stops, and otherwise removes the occupant, builds a Combiner
Node over occupant and incomer, and recursively places the node's output at
`level + 1` (this is the definition of `addOne` above, together with
`addOne_of_free` / `addOne_of_occupied`); consequently, after `k` single-leaf
additions starting from the fresh all-`nil` table the occupied levels are
exactly the positions of the 1-bits of `k` — the binary-counter shape that
gives `O(log k)` combination depth and reuses already-built subtrees. -/
theorem placeOccupancy (mk : σ → σ → σ) (leaves : List σ) (i : Nat) :
    occ (addLeaves mk leaves) i = leaves.length.testBit i := by
  unfold addLeaves
  rw [occ_addLeaves_core mk leaves (List.replicate 20 none) 0
    (by intro j; rw [occ_replicate_none, Nat.zero_testBit]) i]
  norm_num

/-- **C2.** For two finite closed input streams `f` and `s`, the ordered
Combiner Node emits `combine f[i] s[i]` for `i < min |f| |s|`, in exactly that
order (`zipWith`), followed by nothing when `|f| ≤ |s|` (the remaining values
of `s` are never emitted), and followed by exactly the single unpaired value
`f[|s|]`, raw, when `|f| > |s|` (after which the node stops). -/
theorem orderedNode_spec (g : α → α → α) (f s : List α) :
    lockstep g f s = List.zipWith g f s ++ (f.drop s.length).take 1 :=
  lockstep_eq g f s

/-- **C3.** An unordered Combiner Node merging two finite streams `f` and `s`
of total length `n` (the merged pool `m` being any interleaving of the two)
emits exactly `⌈n/2⌉` values; the emitted list consists of the combiner applied
to consecutive pairs drawn from the pool, plus (exactly when `n` is odd) one
leftover pool value emitted as-is, and the chosen pairs together with the
leftover are exactly the merged values. -/
theorem unorderedNode_spec (g : α → α → α) (f s m : List α) (hm : Merge f s m) :
    (pairOff g m).length = (f.length + s.length + 1) / 2 ∧
    ∃ (pairs : List (α × α)) (rest : List α),
      pairOff g m = pairs.map (fun p => g p.1 p.2) ++ rest ∧
      pairs.flatMap (fun p => [p.1, p.2]) ++ rest = m ∧
      rest.length = (f.length + s.length) % 2 := by
  have hlen := hm.length_eq
  refine ⟨by rw [pairOff_length, hlen], ?_⟩
  obtain ⟨pairs, rest, h1, h2, h3⟩ := pairOff_decomposition g m
  exact ⟨pairs, rest, h1, h2, by rw [h3, hlen]⟩

/-- Witness for `unorderedNode_spec` at `f = [1]`, `s = [2, 3]`,
`m = [2, 1, 3]`, `g = (· + ·)`. -/
theorem unorderedNode_spec_witness :
    (pairOff (· + ·) [2, 1, 3]).length = (1 + 2 + 1) / 2 ∧
    ∃ (pairs : List (ℕ × ℕ)) (rest : List ℕ),
      pairOff (· + ·) [2, 1, 3] = pairs.map (fun p => p.1 + p.2) ++ rest ∧
      pairs.flatMap (fun p => [p.1, p.2]) ++ rest = [2, 1, 3] ∧
      rest.length = (1 + 2) % 2 :=
  unorderedNode_spec (· + ·) [1] [2, 3] [2, 1, 3]
    (.right 2 (.left 1 (.right 3 .nil)))

/-! ## Lifecycle controller: `Finish` (two modes) and `New` -/

/-- Result of `Finish` on the Output queue: the queue content after the call,
whether the queue was closed, and the returned `error`. -/
structure FinishResult (T : Type) where
  queueAfter : List T
  closed : Bool
  err : Option String

/-- The inner drain loop of whole-tree `Finish` (treeduction.go lines 88-95):
pop each currently buffered value and combine it into `final`, left to
right, until the queue is momentarily empty (`default` branch). -/
def drainLoop (g : T → T → T) (final : T) : List T → T
  | [] => final
  | v :: rest => drainLoop g (g final v) rest

/-- Embedding of `Finish` (treeduction.go lines 73-101), acting on the content
`q` of the Output queue once the completion barrier has reached zero (after
which no goroutine pushes into the queue any more).  Streaming mode
(`waitForAll = false`, lines 74-79): close the queue, leaving buffered values
untouched.  Whole-tree mode (lines 85-99): if the queue yields a first value,
fold every remaining buffered value into it left-to-right, push the single
result back, and close the queue; if the queue held no value, push nothing and
close it empty.  Both branches `return nil`. -/
def finishModel (g : T → T → T) (waitForAll : Bool) (q : List T) :
    FinishResult T :=
  if waitForAll = false then
    { queueAfter := q, closed := true, err := none }
  else
    match q with
    | [] => { queueAfter := [], closed := true, err := none }
    | final :: rest =>
      { queueAfter := [drainLoop g final rest], closed := true, err := none }

theorem drainLoop_eq_foldl (g : T → T → T) :
    ∀ (l : List T) (a : T), drainLoop g a l = l.foldl g a
  | [], _ => rfl
  | v :: rest, a => by
    rw [drainLoop, List.foldl_cons, drainLoop_eq_foldl g rest (g a v)]

/-- **C6.** In whole-tree mode, `Finish` folds every value buffered in the
Output queue at drain time left-to-right through the combiner into one value,
pushes that single value back, and closes the queue; an empty queue is closed
empty; hence after `Finish` the Output queue yields at most one value and a
subsequent read observes it closed. -/
theorem finishWaitForAll_spec (g : T → T → T) :
    ((finishModel g true ([] : List T)).queueAfter = []) ∧
    (∀ (v : T) (rest : List T),
      (finishModel g true (v :: rest)).queueAfter = [List.foldl g v rest]) ∧
    (∀ q : List T, (finishModel g true q).queueAfter.length ≤ 1 ∧
      (finishModel g true q).closed = true) := by
  refine ⟨rfl, ?_, ?_⟩
  · intro v rest
    simp [finishModel, drainLoop_eq_foldl]
  · intro q
    cases q <;> simp [finishModel]

/-- **C9.** `Finish` always returns an absent error (`nil`), in both
`waitForAll` modes and whatever the queue content. -/
theorem finishNoError (g : T → T → T) (waitForAll : Bool) (q : List T) :
    (finishModel g waitForAll q).err = none := by
  unfold finishModel
  split
  · rfl
  · cases q <;> rfl

/-- Go `make(chan T, n)` creates a queue with buffer capacity `n` (capacity 0
is an unbuffered rendezvous channel) and panics at runtime — modelled by
`Except.error` — when `n` is negative. -/
def makeChan (capacity : Int) : Except String Nat :=
  if capacity < 0 then .error "makechan: size out of range"
  else .ok capacity.toNat

/-- The configuration fields of the `tree` struct (treeduction.go lines
8-19) relevant to queue creation. -/
structure TreeHandle where
  bufSize : Int
  outputCap : Nat
  waitForAll : Bool
  ordered : Bool
  deriving DecidableEq

/-- Embedding of `New` (treeduction.go lines 27-40): `bufferSize` is stored
without any validation and the Output queue is created immediately with
`make(chan T, bufferSize)` (line 33); a negative size therefore panics inside
`New` rather than returning an error. -/
def NewModel (bufferSize : Int) (waitForAll ordered : Bool) :
    Except String TreeHandle :=
  (makeChan bufferSize).map (fun cap =>
    { bufSize := bufferSize, outputCap := cap,
      waitForAll := waitForAll, ordered := ordered })

/-- Buffer capacity of every queue created internally after construction:
`Add` (line 44), `unorderedNode` (lines 155 and 157) and `orderedNode` (line
200) all call `make(chan T, t.bufSize)` with the stored size. -/
def internalQueueCap (t : TreeHandle) : Except String Nat :=
  makeChan t.bufSize

/-- **C10.** `New` performs no validation of its buffer-capacity parameter:
with `bufferCapacity = 0` construction succeeds and every internally created
queue (the Output queue and all later adapter/node queues) is unbuffered
(capacity 0, rendezvous), while any negative `bufferCapacity` makes
construction fail with a runtime panic raised by the Output-queue `make`, not
with a returned error. -/
theorem newValidation :
    (∀ w o : Bool, NewModel 0 w o
        = .ok { bufSize := 0, outputCap := 0, waitForAll := w, ordered := o }) ∧
    (∀ (w o : Bool) (t : TreeHandle), NewModel 0 w o = .ok t →
        internalQueueCap t = .ok 0) ∧
    (∀ c : Int, c < 0 → ∀ w o : Bool,
        NewModel c w o = .error "makechan: size out of range") := by
  refine ⟨?_, ?_, ?_⟩
  · intro w o; rfl
  · intro w o t ht
    have h : (⟨0, 0, w, o⟩ : TreeHandle) = t := by
      simpa [NewModel, makeChan, Except.map] using ht
    rw [← h]; rfl
  · intro c hc w o
    simp only [NewModel, makeChan, if_pos hc, Except.map]

/-- Witness for `newValidation` at concrete inputs `0` and `-1`. -/
theorem newValidation_witness :
    NewModel 0 true false
      = .ok { bufSize := 0, outputCap := 0, waitForAll := true, ordered := false } ∧
    internalQueueCap
      { bufSize := 0, outputCap := 0, waitForAll := true, ordered := false } = .ok 0 ∧
    NewModel (-1) true true = .error "makechan: size out of range" :=
  ⟨newValidation.1 true false,
   newValidation.2.1 true false _ (newValidation.1 true false),
   newValidation.2.2 (-1) (by norm_num) true true⟩

/-! ## Leaf Adapter -/

/-- Embedding of the forwarding goroutine spawned by `Add` for each input
stream (treeduction.go lines 47-61).  `AdapterRun cancelled src out` holds
when a complete run of the adapter with source content `src` forwards exactly
`out` into its internally created bounded queue and then closes that queue and
stops.  Each loop iteration is a `select`: it receives the next source value
(`forward`), observes the source closed and breaks (`exhausted`), or — only
once the shared cancellation token has fired (`cancelled = true`) — takes the
`ctx.Done()` branch and breaks (`cancel`); after cancellation the `select`
may still nondeterministically keep choosing ready source values.  Queue sends
are modelled as completing (the downstream node keeps draining). -/
inductive AdapterRun : Bool → List T → List T → Prop
  | exhausted (cancelled : Bool) : AdapterRun cancelled [] []
  | forward {cancelled : Bool} {rest out : List T} (v : T) :
      AdapterRun cancelled rest out →
      AdapterRun cancelled (v :: rest) (v :: out)
  | cancel (src : List T) : AdapterRun true src []

/-- **C7.** A Leaf Adapter forwards values from its source in source order,
without duplication or loss: whatever it forwards before terminating is an
initial segment (`take k`) of the source — values not yet read at cancellation
time are simply never forwarded — and when the cancellation token never fires
the adapter forwards the entire source (stopping only because the source is
exhausted).  Termination and the closing of its queue are the existence of the
run derivation itself. -/
theorem leafAdapter_spec (cancelled : Bool) (src out : List T)
    (h : AdapterRun cancelled src out) :
    (∃ k, out = src.take k) ∧ (cancelled = false → out = src) := by
  induction h with
  | exhausted c => exact ⟨⟨0, rfl⟩, fun _ => rfl⟩
  | forward v _ ih =>
    obtain ⟨⟨k, hk⟩, hfull⟩ := ih
    refine ⟨⟨k + 1, by rw [List.take_succ_cons, hk]⟩, ?_⟩
    intro hc
    rw [hfull hc]
  | cancel src => exact ⟨⟨0, rfl⟩, fun hc => by cases hc⟩

/-- Witness for `leafAdapter_spec`: a cancelled adapter that forwarded one of
two source values. -/
theorem leafAdapter_spec_witness :
    (∃ k, [1] = [1, 2].take k) ∧ (true = false → [1] = [1, 2]) :=
  leafAdapter_spec true [1, 2] [1] (.forward 1 (.cancel [2]))

/-! ## Root Collector generations and the mutable `t.stop` field -/

/-- One Root Collector goroutine (treeduction.go lines 114-128).  The root
channel is passed by value (`go func(c <-chan T)`, lines 114 and 128), but the
goroutine closes over the pointer `t`, and Go evaluates the channel operand
`t.stop` of the `select` (line 118) afresh on every execution of the `select`
statement.  `spawnGen` is the generation of the stop channel stored in
`t.stop` when the goroutine was spawned; `held` is `some g` while the
collector is parked in its `select` on the stop channel of generation `g`
(the value of the mutable field `t.stop` read when it last entered the
`select`), and `none` while it is executing the loop body between selects
(e.g. blocked in or returning from `t.output <- v`, line 124). -/
structure Collector where
  spawnGen : Nat
  held : Option Nat
  deriving DecidableEq

/-- Generation state: `stopGen` numbers the channel currently stored in the
mutable field `t.stop`.  Stop channels are created in `New` (generation 0,
line 34) and in `updateCollectors` (line 106), and each `updateCollectors`
closes the current one before replacing it (lines 105-106), so exactly the
generations below `stopGen` are closed. -/
structure GenState where
  stopGen : Nat
  live : List Collector
  deriving DecidableEq

/-- Small-step semantics of the collectors and of `updateCollectors`:

* `enter`: a collector executing its loop body re-enters the `select`,
  re-evaluating the mutable field `t.stop` (line 118) — it parks on the
  channel of the *current* generation `stopGen`, whatever its own
  `spawnGen`;
* `deliver`: a parked collector takes the value branch (lines 120-124) and
  is again between selects;
* `retire`: a parked collector whose held stop channel has been closed
  (`g < stopGen`) takes the stop branch and exits (lines 118-119, 127);
* `update`: a later `Add` runs `updateCollectors` (lines 103-130):
  `close(t.stop)` closes the current generation, a fresh channel replaces it
  (`stopGen + 1`), and one collector per occupied root slot is spawned, not
  yet in its `select`.

Exits through a closed root channel (line 121-123) are omitted: they only
remove collectors and play no part in the stop-signal semantics at issue. -/
inductive GenStep : GenState → GenState → Prop
  | enter (s : GenState) (pre post : List Collector) (sp : Nat) :
      s.live = pre ++ ⟨sp, none⟩ :: post →
      GenStep s { s with live := pre ++ ⟨sp, some s.stopGen⟩ :: post }
  | deliver (s : GenState) (pre post : List Collector) (sp g : Nat) :
      s.live = pre ++ ⟨sp, some g⟩ :: post →
      GenStep s { s with live := pre ++ ⟨sp, none⟩ :: post }
  | retire (s : GenState) (pre post : List Collector) (sp g : Nat) :
      s.live = pre ++ ⟨sp, some g⟩ :: post →
      g < s.stopGen →
      GenStep s { s with live := pre ++ post }
  | update (s : GenState) (numRoots : Nat) :
      GenStep s
        { stopGen := s.stopGen + 1,
          live := s.live
            ++ List.replicate numRoots ⟨s.stopGen + 1, none⟩ }

/-- Reachability under collector/`updateCollectors` steps. -/
def GenReaches : GenState → GenState → Prop :=
  Relation.ReflTransGen GenStep

/-- The claim's capture-at-spawn property as a state invariant: every parked
collector waits on the stop channel of its own spawn generation. -/
def CapturesAtSpawn (s : GenState) : Prop :=
  ∀ c ∈ s.live, ∀ g, c.held = some g → g = c.spawnGen

/-- State reached after two `Add` calls in which the generation-1 collector
was between selects at the instant of the second `updateCollectors`: it has
re-entered its `select` holding the generation-2 channel. -/
def survivorState : GenState :=
  { stopGen := 2, live := [⟨1, some 2⟩, ⟨2, none⟩] }

/-- **C8** (code bug exhibit).  The claim — each spawned Root Collector
captures its own generation's stop signal at spawn time, so a later `Add`
retires exactly the prior generation via the old signal — describes the
intended design (the code comment at line 104 says closing `t.stop` stops the
previous goroutines, and the capture idiom is applied to `ch`), but not the
code: the collector re-evaluates the mutable `t.stop` at every `select` entry.
Concretely reachable from the fresh state: after a first `Add`, its collector
delivers a value and, while it is between selects, a second `Add` closes the
generation-1 channel and replaces the field; the collector then re-enters its
`select` holding the open generation-2 channel.  The final state violates
capture-at-spawn, and contains a prior-generation collector
(`spawnGen < stopGen`, its own retirement signal already closed) parked on
the current open channel — it has missed its retirement broadcast and
survived the generation switch. -/
theorem collectorGenerations_bug :
    GenReaches { stopGen := 0, live := [] } survivorState ∧
    ¬ CapturesAtSpawn survivorState ∧
    ∃ c ∈ survivorState.live, c.spawnGen < survivorState.stopGen ∧
      c.held = some survivorState.stopGen := by
  refine ⟨?_, ?_, ⟨1, some 2⟩, by decide, by decide, rfl⟩
  · have st1 : GenStep ⟨0, []⟩ ⟨1, [⟨1, none⟩]⟩ :=
      GenStep.update _ 1
    have st2 : GenStep ⟨1, [⟨1, none⟩]⟩ ⟨1, [⟨1, some 1⟩]⟩ :=
      GenStep.enter _ [] [] 1 rfl
    have st3 : GenStep ⟨1, [⟨1, some 1⟩]⟩ ⟨1, [⟨1, none⟩]⟩ :=
      GenStep.deliver _ [] [] 1 1 rfl
    have st4 : GenStep ⟨1, [⟨1, none⟩]⟩ ⟨2, [⟨1, none⟩, ⟨2, none⟩]⟩ :=
      GenStep.update _ 1
    have st5 : GenStep ⟨2, [⟨1, none⟩, ⟨2, none⟩]⟩ survivorState :=
      GenStep.enter _ [] [⟨2, none⟩] 1 rfl
    exact Relation.ReflTransGen.tail (Relation.ReflTransGen.tail
      (Relation.ReflTransGen.tail (Relation.ReflTransGen.tail
        (Relation.ReflTransGen.tail Relation.ReflTransGen.refl st1) st2)
        st3) st4) st5
  · intro h
    exact absurd (h ⟨1, some 2⟩ (by decide) 2 rfl) (by decide)

/-! ## Streaming-mode `Finish`: cancellation, completion barrier, closing -/

/-- Joint state of a streaming-mode `Finish` call (treeduction.go lines 74-78)
and the goroutines running concurrently with it.  `pc` is `Finish`'s own
program counter: `0` before `t.cancel()`, `1` while blocked in `t.wg.Wait()`,
`2` after `close(t.output)`.  `collectors` is the `sync.WaitGroup` counter:
`wg.Add(1)` appears only in `updateCollectors` (line 113), once per spawned
Root Collector — the Leaf Adapter goroutines spawned in `Add` (lines 47-61)
are never added to the barrier, so live adapters are counted separately in
`adapters`. -/
structure StreamFinishState (T : Type) where
  pc : Nat
  cancelled : Bool
  collectors : Nat
  adapters : Nat
  outBuf : List T
  outClosed : Bool

/-- Interleaved small-step semantics of streaming-mode `Finish`:
`cancel` and `closeOutput` are `Finish`'s two visible actions in program
order (`t.cancel(); t.wg.Wait(); close(t.output)`), with `closeOutput`
enabled only once the barrier has reached zero; a live Root Collector may
push a value into the still-open Output queue or exit (calling `wg.Done`);
a live Leaf Adapter may exit at any time (its exit is never awaited). -/
inductive StreamFinishStep : StreamFinishState T → StreamFinishState T → Prop
  | cancel (s : StreamFinishState T) : s.pc = 0 →
      StreamFinishStep s { s with pc := 1, cancelled := true }
  | collectorPush (s : StreamFinishState T) (v : T) :
      0 < s.collectors → s.outClosed = false →
      StreamFinishStep s { s with outBuf := s.outBuf ++ [v] }
  | collectorDone (s : StreamFinishState T) : 0 < s.collectors →
      StreamFinishStep s { s with collectors := s.collectors - 1 }
  | adapterDone (s : StreamFinishState T) : 0 < s.adapters →
      StreamFinishStep s { s with adapters := s.adapters - 1 }
  | closeOutput (s : StreamFinishState T) : s.pc = 1 → s.collectors = 0 →
      StreamFinishStep s { s with pc := 2, outClosed := true }

/-- Reachability under interleaved streaming-`Finish` steps. -/
def StreamFinishReaches : StreamFinishState T → StreamFinishState T → Prop :=
  Relation.ReflTransGen StreamFinishStep

theorem streamFinish_invariant {s0 s : StreamFinishState T}
    (hpc : s0.pc = 0) (hcl : s0.outClosed = false)
    (hr : StreamFinishReaches s0 s) :
    (s.outClosed = true → s.pc = 2 ∧ s.collectors = 0) ∧
    (1 ≤ s.pc → s.cancelled = true) ∧
    (∃ added, s.outBuf = s0.outBuf ++ added) := by
  induction hr with
  | refl =>
    refine ⟨fun hc => absurd hc (by rw [hcl]; simp), fun h1 => ?_, ⟨[], by simp⟩⟩
    · rw [hpc] at h1; omega
  | tail _ step ih =>
    obtain ⟨ih1, ih2, ⟨added, ihbuf⟩⟩ := ih
    cases step with
    | cancel h =>
      refine ⟨fun hc => ?_, fun _ => rfl, ⟨added, ihbuf⟩⟩
      · exact absurd ((ih1 hc).1) (by rw [h]; omega)
    | collectorPush v hcol hopen =>
      exact ⟨fun hc => absurd hc (by rw [hopen]; simp), ih2,
        ⟨added ++ [v], by rw [ihbuf, List.append_assoc]⟩⟩
    | collectorDone hcol =>
      refine ⟨fun hc => absurd ((ih1 hc).2) (by omega), ih2, ⟨added, ihbuf⟩⟩
    | adapterDone hadp =>
      exact ⟨fun hc => ih1 hc, ih2, ⟨added, ihbuf⟩⟩
    | closeOutput h1 h0 =>
      exact ⟨fun _ => ⟨rfl, h0⟩, fun _ => ih2 (by omega), ⟨added, ihbuf⟩⟩

/-- The concrete closed state reached in `streamingFinish_cex`: `Finish` has
closed the Output queue while one Leaf Adapter is still live. -/
def cexClosedState : StreamFinishState ℕ :=
  { pc := 2, cancelled := true, collectors := 0, adapters := 1,
    outBuf := [], outClosed := true }

/-- **C5 counterexample.**  The claim asserts that streaming-mode `Finish`
closes the Output queue only after every active Leaf Adapter has exited.
False: the completion barrier counts only Root Collectors (`wg.Add` appears
only in `updateCollectors`, line 113), so from a state with no live collector
and one live adapter, `Finish` runs `cancel` and then immediately closes the
queue — reaching a closed state in which the adapter is still live. -/
theorem streamingFinish_cex :
    StreamFinishReaches
      ({ pc := 0, cancelled := false, collectors := 0, adapters := 1,
         outBuf := [], outClosed := false } : StreamFinishState ℕ)
      cexClosedState ∧
    cexClosedState.outClosed = true ∧ cexClosedState.adapters ≠ 0 := by
  refine ⟨?_, rfl, by simp [cexClosedState]⟩
  have step1 : StreamFinishStep
      ({ pc := 0, cancelled := false, collectors := 0, adapters := 1,
         outBuf := [], outClosed := false } : StreamFinishState ℕ)
      { pc := 1, cancelled := true, collectors := 0, adapters := 1,
        outBuf := [], outClosed := false } :=
    StreamFinishStep.cancel _ rfl
  have step2 : StreamFinishStep
      ({ pc := 1, cancelled := true, collectors := 0, adapters := 1,
         outBuf := [], outClosed := false } : StreamFinishState ℕ)
      cexClosedState :=
    StreamFinishStep.closeOutput _ rfl rfl
  exact Relation.ReflTransGen.tail (Relation.ReflTransGen.tail
    Relation.ReflTransGen.refl step1) step2

/-- **C5 (amended).**  In streaming mode, `Finish` trips the cancellation
token and blocks until every active Root Collector has exited — the
completion barrier counts exactly the Root Collectors — before closing the
Output queue (Leaf Adapters are not part of the barrier and may outlive
`Finish`); every value already placed in the Output queue remains buffered
(the queue only grows before closing), available to be drained by the
consumer after `Finish` returns. -/
theorem streamingFinish_spec {s0 s : StreamFinishState T}
    (hpc : s0.pc = 0) (hcl : s0.outClosed = false)
    (hr : StreamFinishReaches s0 s) (hdone : s.outClosed = true) :
    s.cancelled = true ∧ s.collectors = 0 ∧
    ∃ added, s.outBuf = s0.outBuf ++ added := by
  obtain ⟨h1, h2, h3⟩ := streamFinish_invariant hpc hcl hr
  obtain ⟨hpc2, hcol⟩ := h1 hdone
  exact ⟨h2 (by omega), hcol, h3⟩

/-- Witness for `streamingFinish_spec`: a run with one collector that exits
after cancellation, with one value already buffered. -/
theorem streamingFinish_spec_witness :
    ({ pc := 2, cancelled := true, collectors := 0, adapters := 0,
       outBuf := [5], outClosed := true } : StreamFinishState ℕ).cancelled
        = true ∧
    ({ pc := 2, cancelled := true, collectors := 0, adapters := 0,
       outBuf := [5], outClosed := true } : StreamFinishState ℕ).collectors
        = 0 ∧
    ∃ added,
      ({ pc := 2, cancelled := true, collectors := 0, adapters := 0,
         outBuf := [5], outClosed := true } : StreamFinishState ℕ).outBuf
        = [5] ++ added := by
  refine @streamingFinish_spec ℕ
    ⟨0, false, 1, 0, [5], false⟩
    ⟨2, true, 0, 0, [5], true⟩ rfl rfl ?_ rfl
  have step1 : StreamFinishStep
      ({ pc := 0, cancelled := false, collectors := 1, adapters := 0,
         outBuf := [5], outClosed := false } : StreamFinishState ℕ)
      { pc := 1, cancelled := true, collectors := 1, adapters := 0,
        outBuf := [5], outClosed := false } :=
    StreamFinishStep.cancel _ rfl
  have step2 : StreamFinishStep
      ({ pc := 1, cancelled := true, collectors := 1, adapters := 0,
         outBuf := [5], outClosed := false } : StreamFinishState ℕ)
      { pc := 1, cancelled := true, collectors := 0, adapters := 0,
        outBuf := [5], outClosed := false } :=
    StreamFinishStep.collectorDone _ (by decide)
  have step3 : StreamFinishStep
      ({ pc := 1, cancelled := true, collectors := 0, adapters := 0,
         outBuf := [5], outClosed := false } : StreamFinishState ℕ)
      { pc := 2, cancelled := true, collectors := 0, adapters := 0,
        outBuf := [5], outClosed := true } :=
    StreamFinishStep.closeOutput _ rfl rfl
  exact Relation.ReflTransGen.tail (Relation.ReflTransGen.tail
    (Relation.ReflTransGen.tail Relation.ReflTransGen.refl step1) step2) step3

/-! ## Combination trees: the algebra behind end-to-end `waitForAll` runs -/

/-- A combination tree records which original leaf values were combined, and
in which shape, to produce a value flowing through the pipeline. -/
inductive CTree (T : Type) : Type
  | leaf : T → CTree T
  | node : CTree T → CTree T → CTree T

/-- The value a combination tree produces under combiner `g`. -/
def CTree.eval (g : T → T → T) : CTree T → T
  | .leaf v => v
  | .node l r => g (l.eval g) (r.eval g)

/-- The leaf values of a combination tree, left to right. -/
def CTree.flat : CTree T → List T
  | .leaf v => [v]
  | .node l r => l.flat ++ r.flat

theorem CTree.flat_ne_nil : ∀ t : CTree T, t.flat ≠ []
  | .leaf v => by simp [CTree.flat]
  | .node l r => by
    simp only [CTree.flat, ne_eq, List.append_eq_nil]
    intro ⟨hl, _⟩
    exact l.flat_ne_nil hl

/-- Accumulator step of the `Finish` drain loop viewed with an optional
accumulator: `none` means no value has been drained yet. -/
def accOp (g : T → T → T) : Option T → T → Option T
  | none, x => some x
  | some a, x => some (g a x)

/-- Fold of a queue content: `none` for the empty queue, otherwise the
left-to-right fold of all values starting from the first. -/
def listFold (g : T → T → T) (l : List T) : Option T :=
  l.foldl (accOp g) none

theorem foldl_accOp_some (g : T → T → T) :
    ∀ (l : List T) (a : T),
      l.foldl (accOp g) (some a) = some (l.foldl g a)
  | [], _ => rfl
  | v :: l, a => by
    rw [List.foldl_cons, List.foldl_cons, accOp, foldl_accOp_some g l]

theorem listFold_cons (g : T → T → T) (v : T) (l : List T) :
    listFold g (v :: l) = some (l.foldl g v) := by
  rw [listFold, List.foldl_cons]
  exact foldl_accOp_some g l v

theorem rightCommutative_accOp (g : T → T → T) [hA : Std.Associative g]
    [hC : Std.Commutative g] : RightCommutative (accOp g) := by
  constructor
  intro b a1 a2
  cases b with
  | none =>
    show some (g a1 a2) = some (g a2 a1)
    rw [hC.comm]
  | some x =>
    show some (g (g x a1) a2) = some (g (g x a2) a1)
    haveI hR : RightCommutative g := inferInstance
    rw [hR.right_comm]

/-- With an associative, commutative combiner the queue fold is invariant
under permutation of the queue. -/
theorem listFold_perm (g : T → T → T) [Std.Associative g] [Std.Commutative g]
    {l l' : List T} (h : List.Perm l l') : listFold g l = listFold g l' := by
  haveI := rightCommutative_accOp g
  exact h.foldl_eq none

theorem foldl_accOp_flat (g : T → T → T) [hA : Std.Associative g] :
    ∀ (t : CTree T) (a : Option T),
      t.flat.foldl (accOp g) a = accOp g a (t.eval g)
  | .leaf v, a => rfl
  | .node l r, a => by
    rw [CTree.flat, List.foldl_append, foldl_accOp_flat g l a,
      foldl_accOp_flat g r _, CTree.eval]
    cases a with
    | none => rfl
    | some x =>
      show some (g (g x (l.eval g)) (r.eval g)) = _
      rw [hA.assoc]
      rfl

theorem foldl_accOp_flatMap (g : T → T → T) [Std.Associative g] :
    ∀ (ts : List (CTree T)) (a : Option T),
      (ts.flatMap CTree.flat).foldl (accOp g) a
        = (ts.map (CTree.eval g)).foldl (accOp g) a
  | [], _ => rfl
  | t :: ts, a => by
    rw [List.flatMap_cons, List.foldl_append, foldl_accOp_flat,
      List.map_cons, List.foldl_cons, foldl_accOp_flatMap g ts]

/-- Folding the values of combination trees is the same as folding all their
leaves (associativity only). -/
theorem listFold_flatten (g : T → T → T) [Std.Associative g]
    (ts : List (CTree T)) :
    listFold g (ts.flatMap CTree.flat) = listFold g (ts.map (CTree.eval g)) :=
  foldl_accOp_flatMap g ts none

/-- `lockstep` commutes with evaluating combination trees. -/
theorem lockstep_map_eval (g : T → T → T) :
    ∀ tf ts : List (CTree T),
      lockstep g (tf.map (CTree.eval g)) (ts.map (CTree.eval g))
        = (lockstep CTree.node tf ts).map (CTree.eval g)
  | [], _ => by simp [lockstep]
  | t :: tf, [] => by simp [lockstep, CTree.eval]
  | t :: tf, u :: ts => by
    simp only [List.map_cons, lockstep, lockstep_map_eval g tf ts]
    rfl

/-- `pairOff` commutes with evaluating combination trees. -/
theorem pairOff_map_eval (g : T → T → T) :
    ∀ ts : List (CTree T),
      pairOff g (ts.map (CTree.eval g)) = (pairOff CTree.node ts).map (CTree.eval g) := by
  refine twoStepInduction ?_ ?_ ?_
  · simp [pairOff]
  · intro v; simp [pairOff]
  · intro v w l ih
    simp only [List.map_cons, pairOff, ih]
    rfl

/-- Pairing off combination trees two at a time reassociates but neither
loses nor duplicates leaves. -/
theorem pairOff_node_flats :
    ∀ ts : List (CTree T),
      (pairOff CTree.node ts).flatMap CTree.flat = ts.flatMap CTree.flat := by
  refine twoStepInduction ?_ ?_ ?_
  · rfl
  · intro v; rfl
  · intro v w l ih
    simp only [pairOff, List.flatMap_cons, CTree.flat, ih, List.append_assoc]

/-- `Merge` lifts backwards through `map` in its two merged positions. -/
theorem merge_map_inv (fn : α → β) :
    ∀ {F S m : List β}, Merge F S m →
      ∀ {tf ts : List α}, F = tf.map fn → S = ts.map fn →
      ∃ tm, m = tm.map fn ∧ Merge tf ts tm := by
  intro F S m h
  induction h with
  | nil =>
    intro tf ts hF hS
    cases tf with
    | cons _ _ => simp at hF
    | nil =>
      cases ts with
      | cons _ _ => simp at hS
      | nil => exact ⟨[], rfl, .nil⟩
  | left a _ ih =>
    intro tf ts hF hS
    cases tf with
    | nil => simp at hF
    | cons t0 tf =>
      simp only [List.map_cons, List.cons.injEq] at hF
      obtain ⟨tm, rfl, hm⟩ := ih hF.2 hS
      exact ⟨t0 :: tm, by rw [List.map_cons, hF.1], .left t0 hm⟩
  | right b _ ih =>
    intro tf ts hF hS
    cases ts with
    | nil => simp at hS
    | cons t0 ts =>
      simp only [List.map_cons, List.cons.injEq] at hS
      obtain ⟨tm, rfl, hm⟩ := ih hF hS.2
      exact ⟨t0 :: tm, by rw [List.map_cons, hS.1], .right t0 hm⟩

/-- `Merge` lifts backwards through `map` in its interleaved position: a
split of a mapped list arises from a split of the original list. -/
theorem merge_split_inv (fn : α → β) :
    ∀ {l k P : List β}, Merge l k P →
      ∀ {tp : List α}, P = tp.map fn →
      ∃ tl tk, l = tl.map fn ∧ k = tk.map fn ∧ Merge tl tk tp := by
  intro l k P h
  induction h with
  | nil =>
    intro tp hP
    cases tp with
    | cons _ _ => simp at hP
    | nil => exact ⟨[], [], rfl, rfl, .nil⟩
  | left a _ ih =>
    intro tp hP
    cases tp with
    | nil => simp at hP
    | cons t0 tp =>
      simp only [List.map_cons, List.cons.injEq] at hP
      obtain ⟨tl, tk, rfl, rfl, hm⟩ := ih hP.2
      exact ⟨t0 :: tl, tk, by rw [List.map_cons, hP.1], rfl, .left t0 hm⟩
  | right b _ ih =>
    intro tp hP
    cases tp with
    | nil => simp at hP
    | cons t0 tp =>
      simp only [List.map_cons, List.cons.injEq] at hP
      obtain ⟨tl, tk, rfl, rfl, hm⟩ := ih hP.2
      exact ⟨tl, t0 :: tk, rfl, by rw [List.map_cons, hP.1], .right t0 hm⟩

theorem merge_nil_left : ∀ {k p : List α}, Merge [] k p → k = p := by
  intro k p h
  generalize hf : ([] : List α) = f at h
  induction h with
  | nil => rfl
  | left a _ _ => simp at hf
  | right b _ ih => rw [ih hf]

/-! ## Data-flow runs of `Add`/`addOne` and the final collection -/

/-- The level slot table with each occupied slot holding the full content of
its pending stream. -/
abbrev Table (β : Type) := List (Option (List β))

/-- All values pending in the table's root streams, in slot order; with
`β := CTree T` also the combination trees pending in a ghost table. -/
def rootsJoin (tbl : Table β) : List β :=
  tbl.flatMap (fun o => o.getD [])

/-- The stream a Combiner Node outputs given its two input streams
(treeduction.go lines 145-150): `orderedNode` produces the `lockstep`
combination, `unorderedNode` pairs off some fan-in interleaving of its
inputs. -/
def NodeRun (g : β → β → β) (ordered : Bool) (f s out : List β) : Prop :=
  if ordered then out = lockstep g f s
  else ∃ m, Merge f s m ∧ out = pairOff g m

/-- One `addOne` placement (treeduction.go lines 132-152) at the data-flow
level: `PlaceRun g ordered tbl st lvl tbl' leak` relates the table before and
after placing a stream with content `st` at `lvl`, where `leak` collects the
values of displaced occupants that a still-running previous-generation Root
Collector had already consumed and delivered directly to the Output queue
before observing its retirement signal (the spawned Combiner Node reads the
complementary subsequence of the occupant's channel).  A placement into a
slot whose occupant has no active collector — in particular every slot during
the first `Add` call — has `leak = []`. -/
inductive PlaceRun (g : β → β → β) (ordered : Bool) :
    Table β → List β → Nat → Table β → List β → Prop
  | free (tbl : Table β) (st : List β) (lvl : Nat) :
      (extend tbl lvl)[lvl]? = some none →
      PlaceRun g ordered tbl st lvl ((extend tbl lvl).set lvl (some st)) []
  | occupied (tbl : Table β) (st : List β) (lvl : Nat)
      (prev leak keep out : List β) (tbl' : Table β) (leaks : List β) :
      (extend tbl lvl)[lvl]? = some (some prev) →
      Merge leak keep prev →
      NodeRun g ordered keep st out →
      PlaceRun g ordered ((extend tbl lvl).set lvl none) out (lvl + 1)
        tbl' leaks →
      PlaceRun g ordered tbl st lvl tbl' (leak ++ leaks)

/-- One `Add` call (treeduction.go lines 42-67): each of the supplied input
streams — in whole-tree mode the Leaf Adapter forwards each finite source in
full, since cancellation fires only after all work has drained — is placed at
level 0, left to right. -/
inductive AddRun (g : β → β → β) (ordered : Bool) :
    Table β → List (List β) → Table β → List β → Prop
  | nil (tbl : Table β) : AddRun g ordered tbl [] tbl []
  | cons (tbl tbl1 tbl2 : Table β) (src : List β) (rest : List (List β))
      (leak leaks : List β) :
      PlaceRun g ordered tbl src 0 tbl1 leak →
      AddRun g ordered tbl1 rest tbl2 leaks →
      AddRun g ordered tbl (src :: rest) tbl2 (leak ++ leaks)

/-- A sequence of `Add` calls. -/
inductive RunAdds (g : β → β → β) (ordered : Bool) :
    Table β → List (List (List β)) → Table β → List β → Prop
  | nil (tbl : Table β) : RunAdds g ordered tbl [] tbl []
  | cons (tbl tbl1 tbl2 : Table β) (call : List (List β))
      (rest : List (List (List β))) (leak leaks : List β) :
      AddRun g ordered tbl call tbl1 leak →
      RunAdds g ordered tbl1 rest tbl2 leaks →
      RunAdds g ordered tbl (call :: rest) tbl2 (leak ++ leaks)

/-- Multiset of the leaf values below a list of combination trees. -/
def msFlats (ts : List (CTree T)) : Multiset T :=
  ((ts.flatMap CTree.flat : List T) : Multiset T)

theorem msFlats_append (a b : List (CTree T)) :
    msFlats (a ++ b) = msFlats a + msFlats b := by
  unfold msFlats
  rw [List.flatMap_append]
  rfl

theorem msFlats_cons (t : CTree T) (l : List (CTree T)) :
    msFlats (t :: l) = (t.flat : Multiset T) + msFlats l := by
  unfold msFlats
  rw [List.flatMap_cons]
  rfl

theorem msFlats_perm {a b : List (CTree T)} (h : List.Perm a b) :
    msFlats a = msFlats b := by
  unfold msFlats
  exact Multiset.coe_eq_coe.mpr (List.Perm.flatMap_right CTree.flat h)

theorem rootsJoin_extend (tbl : Table β) (n : Nat) :
    rootsJoin (extend tbl n) = rootsJoin tbl := by
  unfold rootsJoin extend
  rw [List.flatMap_append]
  have : ∀ k : Nat, (List.replicate k (none : Option (List β))).flatMap
      (fun o => o.getD []) = [] := by
    intro k
    induction k with
    | zero => rfl
    | succ k ih => rw [List.replicate_succ, List.flatMap_cons, ih]; rfl
  rw [this, List.append_nil]

/-- Exchanging the occupant of one slot: the table's pending values before
and after, together with the respective slot contents, agree as multisets. -/
theorem rootsJoin_set_exchange :
    ∀ (tbl : Table β) (lvl : Nat), lvl < tbl.length →
    ∀ o : Option (List β),
      List.Perm (rootsJoin (tbl.set lvl o) ++ (tbl[lvl]?.getD none).getD [])
        (rootsJoin tbl ++ o.getD []) := by
  intro tbl
  induction tbl with
  | nil => intro lvl h; simp at h
  | cons hd tl ih =>
    intro lvl hl o
    cases lvl with
    | zero =>
      simp only [List.set_cons_zero, rootsJoin, List.flatMap_cons,
        List.getElem?_cons_zero, Option.getD_some]
      rw [List.append_assoc]
      refine List.Perm.trans List.perm_append_comm ?_
      exact List.Perm.append_right _ List.perm_append_comm
    | succ n =>
      have hn : n < tl.length := by
        simpa using Nat.lt_of_succ_lt_succ hl
      simp only [List.set_cons_succ, rootsJoin, List.flatMap_cons,
        List.getElem?_cons_succ]
      rw [List.append_assoc, List.append_assoc]
      exact List.Perm.append_left _ (ih n hn o)

/-- Multiset form of `rootsJoin_set_exchange` on ghost tables. -/
theorem msFlats_set_exchange (gtbl : Table (CTree T)) (lvl : Nat)
    (hl : lvl < gtbl.length) (o : Option (List (CTree T))) :
    msFlats (rootsJoin (gtbl.set lvl o))
        + msFlats ((gtbl[lvl]?.getD none).getD [])
      = msFlats (rootsJoin gtbl) + msFlats (o.getD []) := by
  have h := rootsJoin_set_exchange gtbl lvl hl o
  have := msFlats_perm h
  rwa [msFlats_append, msFlats_append] at this

theorem msFlats_nil : msFlats ([] : List (CTree T)) = 0 := rfl

theorem msFlats_free_set (tbl : Table (CTree T)) (st : List (CTree T))
    (lvl : Nat) (hlook : (extend tbl lvl)[lvl]? = some none) :
    msFlats (rootsJoin ((extend tbl lvl).set lvl (some st)))
      = msFlats st + msFlats (rootsJoin tbl) := by
  have hx := msFlats_set_exchange (extend tbl lvl) lvl (extend_length tbl lvl)
    (some st)
  rw [hlook, rootsJoin_extend] at hx
  simp only [Option.getD_some, Option.getD_none, msFlats_nil, add_zero] at hx
  rw [hx, add_comm]

theorem msFlats_occupied_set (tbl : Table (CTree T)) (prev : List (CTree T))
    (lvl : Nat) (hlook : (extend tbl lvl)[lvl]? = some (some prev)) :
    msFlats (rootsJoin ((extend tbl lvl).set lvl none)) + msFlats prev
      = msFlats (rootsJoin tbl) := by
  have hx := msFlats_set_exchange (extend tbl lvl) lvl (extend_length tbl lvl)
    none
  rw [hlook, rootsJoin_extend] at hx
  simpa only [Option.getD_some, Option.getD_none, msFlats_nil, add_zero]
    using hx

/-- Data-flow invariant of a placement under the unordered discipline: the
leaf values leaked to the Output queue plus those still pending in the table
are exactly the placed stream's leaf values plus those pending before. -/
theorem placeRun_flats :
    ∀ {gtbl gtbl' : Table (CTree T)} {gst : List (CTree T)} {lvl : Nat}
      {gleak : List (CTree T)},
    PlaceRun CTree.node false gtbl gst lvl gtbl' gleak →
    msFlats gleak + msFlats (rootsJoin gtbl')
      = msFlats gst + msFlats (rootsJoin gtbl) := by
  intro gtbl gtbl' gst lvl gleak h
  induction h with
  | free tbl st lvl hlook =>
    rw [msFlats_nil, zero_add, msFlats_free_set tbl st lvl hlook]
  | occupied tbl st lvl prev leak keep out tbl' leaks hlook hmerge hnode hrec ih =>
    obtain ⟨gm, hgm, hout⟩ := hnode
    have hx := msFlats_occupied_set tbl prev lvl hlook
    have hprev : msFlats prev = msFlats leak + msFlats keep := by
      have hp := msFlats_perm hmerge.perm
      rwa [msFlats_append] at hp
    have hgm2 : msFlats gm = msFlats keep + msFlats st := by
      have hp := msFlats_perm hgm.perm
      rwa [msFlats_append] at hp
    have hout2 : msFlats out = msFlats gm := by
      rw [hout]
      unfold msFlats
      rw [pairOff_node_flats]
    rw [msFlats_append]
    calc msFlats leak + msFlats leaks + msFlats (rootsJoin tbl')
        = msFlats leak + (msFlats leaks + msFlats (rootsJoin tbl')) :=
          add_assoc _ _ _
      _ = msFlats leak + (msFlats out
            + msFlats (rootsJoin ((extend tbl lvl).set lvl none))) := by
          rw [ih]
      _ = msFlats leak + ((msFlats keep + msFlats st)
            + msFlats (rootsJoin ((extend tbl lvl).set lvl none))) := by
          rw [hout2, hgm2]
      _ = msFlats st + (msFlats (rootsJoin ((extend tbl lvl).set lvl none))
            + (msFlats leak + msFlats keep)) := by abel
      _ = msFlats st + (msFlats (rootsJoin ((extend tbl lvl).set lvl none))
            + msFlats prev) := by rw [hprev]
      _ = msFlats st + msFlats (rootsJoin tbl) := by
          rw [hx]

/-- Data-flow invariant of one unordered `Add` call. -/
theorem addRun_flats :
    ∀ {gtbl gtbl' : Table (CTree T)} {srcs : List (List (CTree T))}
      {gleak : List (CTree T)},
    AddRun CTree.node false gtbl srcs gtbl' gleak →
    msFlats gleak + msFlats (rootsJoin gtbl')
      = msFlats (srcs.flatMap id) + msFlats (rootsJoin gtbl) := by
  intro gtbl gtbl' srcs gleak h
  induction h with
  | nil tbl => rw [msFlats_nil, zero_add, List.flatMap_nil, msFlats_nil,
      zero_add]
  | cons tbl tbl1 tbl2 src rest leak leaks hplace hrest ih =>
    have h1 := placeRun_flats hplace
    rw [msFlats_append, List.flatMap_cons, msFlats_append, id]
    calc msFlats leak + msFlats leaks + msFlats (rootsJoin tbl2)
        = msFlats leak + (msFlats leaks + msFlats (rootsJoin tbl2)) :=
          add_assoc _ _ _
      _ = msFlats leak + (msFlats (rest.flatMap id)
            + msFlats (rootsJoin tbl1)) := by rw [ih]
      _ = msFlats (rest.flatMap id)
            + (msFlats leak + msFlats (rootsJoin tbl1)) := by abel
      _ = msFlats (rest.flatMap id)
            + (msFlats src + msFlats (rootsJoin tbl)) := by rw [h1]
      _ = msFlats src + msFlats (rest.flatMap id)
            + msFlats (rootsJoin tbl) := by abel

/-- Data-flow invariant of a sequence of unordered `Add` calls. -/
theorem runAdds_flats :
    ∀ {gtbl gtbl' : Table (CTree T)} {calls : List (List (List (CTree T)))}
      {gleak : List (CTree T)},
    RunAdds CTree.node false gtbl calls gtbl' gleak →
    msFlats gleak + msFlats (rootsJoin gtbl')
      = msFlats (calls.flatMap (fun c => c.flatMap id))
        + msFlats (rootsJoin gtbl) := by
  intro gtbl gtbl' calls gleak h
  induction h with
  | nil tbl => rw [msFlats_nil, zero_add, List.flatMap_nil, msFlats_nil,
      zero_add]
  | cons tbl tbl1 tbl2 call rest leak leaks hadd hrest ih =>
    have h1 := addRun_flats hadd
    rw [msFlats_append, List.flatMap_cons, msFlats_append]
    calc msFlats leak + msFlats leaks + msFlats (rootsJoin tbl2)
        = msFlats leak + (msFlats leaks + msFlats (rootsJoin tbl2)) :=
          add_assoc _ _ _
      _ = msFlats leak + (msFlats (rest.flatMap (fun c => c.flatMap id))
            + msFlats (rootsJoin tbl1)) := by rw [ih]
      _ = msFlats (rest.flatMap (fun c => c.flatMap id))
            + (msFlats leak + msFlats (rootsJoin tbl1)) := by abel
      _ = msFlats (rest.flatMap (fun c => c.flatMap id))
            + (msFlats (call.flatMap id) + msFlats (rootsJoin tbl)) := by
          rw [h1]
      _ = msFlats (call.flatMap id)
            + msFlats (rest.flatMap (fun c => c.flatMap id))
            + msFlats (rootsJoin tbl) := by abel

/-! ## The ordered discipline with equal-length streams -/

/-- Every stream pending in the table has length `L`. -/
def TableUniform (L : Nat) (tbl : Table β) : Prop :=
  ∀ o ∈ tbl, ∀ l : List β, o = some l → l.length = L

theorem tableUniform_extend {L : Nat} {tbl : Table β} (h : TableUniform L tbl)
    (n : Nat) : TableUniform L (extend tbl n) := by
  intro o ho l hl
  rcases List.mem_append.mp ho with h1 | h2
  · exact h o h1 l hl
  · rw [List.eq_of_mem_replicate h2] at hl; cases hl

theorem tableUniform_set {L : Nat} {tbl : Table β} (h : TableUniform L tbl)
    {lvl : Nat} {o : Option (List β)}
    (ho : ∀ l : List β, o = some l → l.length = L) :
    TableUniform L (tbl.set lvl o) := by
  intro o' ho' l hl
  rcases List.mem_or_eq_of_mem_set ho' with h1 | h2
  · exact h o' h1 l hl
  · rw [h2] at hl; exact ho l hl

theorem tableUniform_lookup {L : Nat} {tbl : Table β} (h : TableUniform L tbl)
    {lvl : Nat} {prev : List β} (hl : tbl[lvl]? = some (some prev)) :
    prev.length = L :=
  h (some prev) (List.getElem?_mem hl) prev rfl

theorem lockstep_length_eq (g : β → β → β) {f s : List β}
    (h : f.length = s.length) : (lockstep g f s).length = f.length := by
  have hd : f.drop s.length = [] := by rw [← h, List.drop_length]
  rw [lockstep_eq, hd, List.take_nil, List.append_nil, List.length_zipWith,
    h, min_self]

theorem lockstep_node_flats :
    ∀ {tf ts : List (CTree T)}, tf.length = ts.length →
      msFlats (lockstep CTree.node tf ts) = msFlats tf + msFlats ts := by
  intro tf
  induction tf with
  | nil =>
    intro ts h
    cases ts with
    | nil => rfl
    | cons u us => simp at h
  | cons t tf ih =>
    intro ts h
    cases ts with
    | nil => simp at h
    | cons u us =>
      have h' : tf.length = us.length := by simpa using h
      show msFlats (CTree.node t u :: lockstep CTree.node tf us) = _
      rw [msFlats_cons, ih h', msFlats_cons, msFlats_cons,
        show (((CTree.node t u).flat : List T) : Multiset T)
          = (t.flat : Multiset T) + (u.flat : Multiset T) from rfl]
      abel

/-- Data-flow invariant of a leak-free ordered placement of a length-`L`
stream into a table of length-`L` streams. -/
theorem placeRun_flats_ordered {L : Nat} :
    ∀ {gtbl gtbl' : Table (CTree T)} {gst : List (CTree T)} {lvl : Nat}
      {gleak : List (CTree T)},
    PlaceRun CTree.node true gtbl gst lvl gtbl' gleak →
    gleak = [] → TableUniform L gtbl → gst.length = L →
    (msFlats (rootsJoin gtbl') = msFlats gst + msFlats (rootsJoin gtbl)) ∧
    TableUniform L gtbl' := by
  intro gtbl gtbl' gst lvl gleak h
  induction h with
  | free tbl st lvl hlook =>
    intro _ huni hlen
    refine ⟨msFlats_free_set tbl st lvl hlook, ?_⟩
    refine tableUniform_set (tableUniform_extend huni lvl) ?_
    intro l hl
    cases hl
    exact hlen
  | occupied tbl st lvl prev leak keep out tbl' leaks hlook hmerge hnode hrec ih =>
    intro hnil huni hlen
    obtain ⟨hleak, hleaks⟩ := List.append_eq_nil.mp hnil
    subst hleak
    have hkeep : keep = prev := merge_nil_left hmerge
    have hout : out = lockstep CTree.node keep st := hnode
    have hkeeplen : keep.length = L := by
      rw [hkeep]
      exact tableUniform_lookup (tableUniform_extend huni lvl) hlook
    have houtlen : out.length = L := by
      rw [hout, lockstep_length_eq _ (by rw [hkeeplen, hlen])]
      exact hkeeplen
    have huni2 : TableUniform L ((extend tbl lvl).set lvl none) := by
      refine tableUniform_set (tableUniform_extend huni lvl) ?_
      intro l hl
      cases hl
    obtain ⟨ihf, ihu⟩ := ih hleaks huni2 houtlen
    refine ⟨?_, ihu⟩
    have houtf : msFlats out = msFlats keep + msFlats st := by
      rw [hout]
      exact lockstep_node_flats (by rw [hkeeplen, hlen])
    have hx := msFlats_occupied_set tbl prev lvl hlook
    calc msFlats (rootsJoin tbl')
        = msFlats out + msFlats (rootsJoin ((extend tbl lvl).set lvl none)) :=
          ihf
      _ = (msFlats keep + msFlats st)
            + msFlats (rootsJoin ((extend tbl lvl).set lvl none)) := by
          rw [houtf]
      _ = msFlats st + (msFlats (rootsJoin ((extend tbl lvl).set lvl none))
            + msFlats prev) := by rw [← hkeep]; abel
      _ = msFlats st + msFlats (rootsJoin tbl) := by rw [hx]

/-- Data-flow invariant of one leak-free ordered `Add` call with
equal-length streams. -/
theorem addRun_flats_ordered {L : Nat} :
    ∀ {gtbl gtbl' : Table (CTree T)} {srcs : List (List (CTree T))}
      {gleak : List (CTree T)},
    AddRun CTree.node true gtbl srcs gtbl' gleak →
    gleak = [] → TableUniform L gtbl → (∀ src ∈ srcs, src.length = L) →
    (msFlats (rootsJoin gtbl')
      = msFlats (srcs.flatMap id) + msFlats (rootsJoin gtbl)) ∧
    TableUniform L gtbl' := by
  intro gtbl gtbl' srcs gleak h
  induction h with
  | nil tbl =>
    intro _ huni _
    exact ⟨by rw [List.flatMap_nil, msFlats_nil, zero_add], huni⟩
  | cons tbl tbl1 tbl2 src rest leak leaks hplace hrest ih =>
    intro hnil huni hlens
    obtain ⟨hleak, hleaks⟩ := List.append_eq_nil.mp hnil
    obtain ⟨h1, huni1⟩ := placeRun_flats_ordered hplace hleak huni
      (hlens src (List.mem_cons_self _ _))
    obtain ⟨ihf, ihu⟩ := ih hleaks huni1
      (fun s hs => hlens s (List.mem_cons_of_mem _ hs))
    refine ⟨?_, ihu⟩
    rw [List.flatMap_cons, msFlats_append, id]
    calc msFlats (rootsJoin tbl2)
        = msFlats (rest.flatMap id) + msFlats (rootsJoin tbl1) := ihf
      _ = msFlats (rest.flatMap id)
            + (msFlats src + msFlats (rootsJoin tbl)) := by rw [h1]
      _ = msFlats src + msFlats (rest.flatMap id)
            + msFlats (rootsJoin tbl) := by abel

/-! ## Simulation: every run of values is the projection of a run of
combination trees -/

/-- Project a ghost table of combination trees to the table of the values
they evaluate to. -/
def tmap (fn : α → β) (tbl : Table α) : Table β :=
  tbl.map (Option.map (List.map fn))

theorem tmap_extend (fn : α → β) (tbl : Table α) (n : Nat) :
    tmap fn (extend tbl n) = extend (tmap fn tbl) n := by
  unfold tmap extend
  rw [List.map_append, List.map_replicate, List.length_map]
  rfl

theorem tmap_set (fn : α → β) (tbl : Table α) (i : Nat) (o : Option (List α)) :
    tmap fn (tbl.set i o) = (tmap fn tbl).set i (Option.map (List.map fn) o) :=
  List.map_set ..

theorem tmap_getElem? (fn : α → β) (tbl : Table α) (i : Nat) :
    (tmap fn tbl)[i]? = Option.map (Option.map (List.map fn)) tbl[i]? :=
  List.getElem?_map ..

theorem rootsJoin_tmap (fn : α → β) (tbl : Table α) :
    rootsJoin (tmap fn tbl) = (rootsJoin tbl).map fn := by
  unfold rootsJoin tmap
  rw [List.flatMap_map, List.map_flatMap]
  congr 1
  funext o
  cases o <;> rfl

theorem placeRun_lift (g : T → T → T) (ordered : Bool) :
    ∀ {vtbl vtbl' : Table T} {vst : List T} {lvl : Nat} {vleak : List T},
    PlaceRun g ordered vtbl vst lvl vtbl' vleak →
    ∀ {gtbl : Table (CTree T)} {gst : List (CTree T)},
      vtbl = tmap (CTree.eval g) gtbl → vst = gst.map (CTree.eval g) →
      ∃ (gtbl' : Table (CTree T)) (gleak : List (CTree T)),
        PlaceRun CTree.node ordered gtbl gst lvl gtbl' gleak ∧
        vtbl' = tmap (CTree.eval g) gtbl' ∧
        vleak = gleak.map (CTree.eval g) := by
  intro vtbl vtbl' vst lvl vleak h
  induction h with
  | free tbl st lvl hlook =>
    intro gtbl gst htbl hst
    subst htbl
    subst hst
    rw [← tmap_extend, tmap_getElem?] at hlook
    cases hE : (extend gtbl lvl)[lvl]? with
    | none => rw [hE] at hlook; simp at hlook
    | some o =>
      rw [hE] at hlook
      cases o with
      | some l => simp at hlook
      | none =>
        refine ⟨(extend gtbl lvl).set lvl (some gst), [],
          .free gtbl gst lvl hE, ?_, rfl⟩
        rw [tmap_set, tmap_extend]
        rfl
  | occupied tbl st lvl prev leak keep out tbl' leaks hlook hmerge hnode hrec ih =>
    intro gtbl gst htbl hst
    subst htbl
    rw [← tmap_extend, tmap_getElem?] at hlook
    cases hE : (extend gtbl lvl)[lvl]? with
    | none => rw [hE] at hlook; simp at hlook
    | some o =>
      rw [hE] at hlook
      cases o with
      | none => simp at hlook
      | some gprev =>
        have hprev : prev = gprev.map (CTree.eval g) := by
          simpa using hlook.symm
        obtain ⟨gleak0, gkeep, hleak0, hkeep, hsplit⟩ :=
          merge_split_inv (CTree.eval g) hmerge hprev
        have hrecTbl : ((extend (tmap (CTree.eval g) gtbl) lvl).set lvl none)
            = tmap (CTree.eval g) ((extend gtbl lvl).set lvl none) := by
          rw [tmap_set, tmap_extend]
          rfl
        cases ordered with
        | true =>
          have hout : out = lockstep g keep st := hnode
          have hout2 : out = (lockstep CTree.node gkeep gst).map
              (CTree.eval g) := by
            rw [hout, hkeep, hst, ← lockstep_map_eval]
          obtain ⟨gtbl', gleaks, grun, htbl', hleaks⟩ :=
            ih hrecTbl hout2
          refine ⟨gtbl', gleak0 ++ gleaks,
            .occupied gtbl gst lvl gprev gleak0 gkeep
              (lockstep CTree.node gkeep gst) gtbl' gleaks hE hsplit rfl grun,
            htbl', ?_⟩
          rw [List.map_append, ← hleak0, ← hleaks]
        | false =>
          obtain ⟨m, hm, hout⟩ := hnode
          obtain ⟨gm, hmm, hgm⟩ := merge_map_inv (CTree.eval g) hm hkeep hst
          have hout2 : out = (pairOff CTree.node gm).map (CTree.eval g) := by
            rw [hout, hmm, ← pairOff_map_eval]
          obtain ⟨gtbl', gleaks, grun, htbl', hleaks⟩ :=
            ih hrecTbl hout2
          refine ⟨gtbl', gleak0 ++ gleaks,
            .occupied gtbl gst lvl gprev gleak0 gkeep
              (pairOff CTree.node gm) gtbl' gleaks hE hsplit ⟨gm, hgm, rfl⟩
              grun,
            htbl', ?_⟩
          rw [List.map_append, ← hleak0, ← hleaks]

theorem addRun_lift (g : T → T → T) (ordered : Bool) :
    ∀ {vtbl vtbl' : Table T} {vsrcs : List (List T)} {vleak : List T},
    AddRun g ordered vtbl vsrcs vtbl' vleak →
    ∀ {gtbl : Table (CTree T)} {gsrcs : List (List (CTree T))},
      vtbl = tmap (CTree.eval g) gtbl →
      vsrcs = gsrcs.map (List.map (CTree.eval g)) →
      ∃ (gtbl' : Table (CTree T)) (gleak : List (CTree T)),
        AddRun CTree.node ordered gtbl gsrcs gtbl' gleak ∧
        vtbl' = tmap (CTree.eval g) gtbl' ∧
        vleak = gleak.map (CTree.eval g) := by
  intro vtbl vtbl' vsrcs vleak h
  induction h with
  | nil tbl =>
    intro gtbl gsrcs htbl hsrcs
    cases gsrcs with
    | cons _ _ => simp at hsrcs
    | nil => exact ⟨gtbl, [], .nil gtbl, htbl, rfl⟩
  | cons tbl tbl1 tbl2 src rest leak leaks hplace hrest ih =>
    intro gtbl gsrcs htbl hsrcs
    cases gsrcs with
    | nil => simp at hsrcs
    | cons gsrc grest =>
      simp only [List.map_cons, List.cons.injEq] at hsrcs
      obtain ⟨gtbl1, gleak, gpl, htbl1, hleak⟩ :=
        placeRun_lift g ordered hplace htbl hsrcs.1
      obtain ⟨gtbl2, gleaks, gadd, htbl2, hleaks⟩ := ih htbl1 hsrcs.2
      refine ⟨gtbl2, gleak ++ gleaks,
        .cons gtbl gtbl1 gtbl2 gsrc grest gleak gleaks gpl gadd, htbl2, ?_⟩
      rw [List.map_append, ← hleak, ← hleaks]

theorem runAdds_lift (g : T → T → T) (ordered : Bool) :
    ∀ {vtbl vtbl' : Table T} {vcalls : List (List (List T))} {vleak : List T},
    RunAdds g ordered vtbl vcalls vtbl' vleak →
    ∀ {gtbl : Table (CTree T)} {gcalls : List (List (List (CTree T)))},
      vtbl = tmap (CTree.eval g) gtbl →
      vcalls = gcalls.map (List.map (List.map (CTree.eval g))) →
      ∃ (gtbl' : Table (CTree T)) (gleak : List (CTree T)),
        RunAdds CTree.node ordered gtbl gcalls gtbl' gleak ∧
        vtbl' = tmap (CTree.eval g) gtbl' ∧
        vleak = gleak.map (CTree.eval g) := by
  intro vtbl vtbl' vcalls vleak h
  induction h with
  | nil tbl =>
    intro gtbl gcalls htbl hcalls
    cases gcalls with
    | cons _ _ => simp at hcalls
    | nil => exact ⟨gtbl, [], .nil gtbl, htbl, rfl⟩
  | cons tbl tbl1 tbl2 call rest leak leaks hadd hrest ih =>
    intro gtbl gcalls htbl hcalls
    cases gcalls with
    | nil => simp at hcalls
    | cons gcall grest =>
      simp only [List.map_cons, List.cons.injEq] at hcalls
      obtain ⟨gtbl1, gleak, gad, htbl1, hleak⟩ :=
        addRun_lift g ordered hadd htbl hcalls.1
      obtain ⟨gtbl2, gleaks, grun, htbl2, hleaks⟩ := ih htbl1 hcalls.2
      refine ⟨gtbl2, gleak ++ gleaks,
        .cons gtbl gtbl1 gtbl2 gcall grest gleak gleaks gad grun, htbl2, ?_⟩
      rw [List.map_append, ← hleak, ← hleaks]

/-! ## End-to-end whole-tree correctness -/

theorem map_eval_leaf (g : T → T → T) (src : List T) :
    (src.map CTree.leaf).map (CTree.eval g) = src := by
  rw [List.map_map]
  have h : (CTree.eval g ∘ CTree.leaf) = (id : T → T) := by
    funext v; rfl
  rw [h, List.map_id]

theorem map_map_eval_leaf (g : T → T → T) (c : List (List T)) :
    (c.map (List.map CTree.leaf)).map (List.map (CTree.eval g)) = c := by
  rw [List.map_map]
  have h : (List.map (CTree.eval g) ∘ List.map CTree.leaf)
      = (id : List T → List T) := by
    funext src
    exact map_eval_leaf g src
  rw [h, List.map_id]

theorem calls_leafMap_eq (g : T → T → T) (calls : List (List (List T))) :
    calls = (calls.map (List.map (List.map CTree.leaf))).map
      (List.map (List.map (CTree.eval g))) := by
  rw [List.map_map]
  have h : (List.map (List.map (CTree.eval g))
      ∘ List.map (List.map CTree.leaf)) = (id : List (List T) → List (List T)) := by
    funext c
    exact map_map_eval_leaf g c
  rw [h, List.map_id]

theorem tmap_replicate_none (fn : α → β) (n : Nat) :
    tmap fn (List.replicate n none) = List.replicate n none := by
  unfold tmap
  rw [List.map_replicate]
  rfl

theorem rootsJoin_replicate_none (n : Nat) :
    rootsJoin (List.replicate n (none : Option (List β))) = [] := by
  induction n with
  | zero => rfl
  | succ k ih =>
    unfold rootsJoin at ih ⊢
    rw [List.replicate_succ, List.flatMap_cons, ih]
    rfl

theorem msFlats_leafMap (src : List T) :
    msFlats (src.map CTree.leaf) = (src : Multiset T) := by
  unfold msFlats
  congr 1
  induction src with
  | nil => rfl
  | cons v l ih => rw [List.map_cons, List.flatMap_cons, ih]; rfl

theorem gcall_flatMap_leaf (c : List (List T)) :
    (c.map (List.map CTree.leaf)).flatMap id
      = (c.flatMap id).map CTree.leaf := by
  rw [List.flatMap_map, List.map_flatMap]
  simp [id]

theorem gcalls_flats (calls : List (List (List T))) :
    msFlats ((calls.map (List.map (List.map CTree.leaf))).flatMap
        (fun c => c.flatMap id))
      = ((calls.flatMap (fun c => c.flatMap id) : List T) : Multiset T) := by
  rw [List.flatMap_map]
  have h : (fun c : List (List T) =>
      (c.map (List.map CTree.leaf)).flatMap id)
      = fun c => (c.flatMap id).map CTree.leaf := by
    funext c
    exact gcall_flatMap_leaf c
  rw [h, ← List.map_flatMap]
  exact msFlats_leafMap _

theorem queueAfter_eq_listFold (g : T → T → T) (q : List T) :
    (finishModel g true q).queueAfter = (listFold g q).toList := by
  cases q with
  | nil => rfl
  | cons v rest =>
    rw [listFold_cons]
    show [drainLoop g v rest] = _
    rw [drainLoop_eq_foldl]
    rfl

theorem tableUniform_replicate_none (L n : Nat) :
    TableUniform L (List.replicate n (none : Option (List β))) := by
  intro o ho l hl
  rw [List.eq_of_mem_replicate ho] at hl
  cases hl

/-- **C1 (amended).**  With an associative and commutative combiner, in
`waitForAll = true` mode the value `Finish` delivers on the Output queue is
the fold of the combiner over all input values, regardless of the order
leaves were added, the tree shape produced, and every scheduling choice
(fan-in interleavings, collector hand-offs, queue ordering) — provided the
unordered discipline is used; under `ordered = true` the same holds for a
single `Add` call whose streams all supply equally many values (the caller
contract of the ordered discipline).  `q` ranges over the possible Output
queue contents at drain time: some interleaving of the values leaked by
retired collector generations and of the final root streams. -/
theorem waitForAllFold (g : T → T → T) [Std.Associative g]
    [Std.Commutative g] :
    (∀ (calls : List (List (List T))) (tbl : Table T) (leaked q : List T),
      RunAdds g false (List.replicate 20 none) calls tbl leaked →
      List.Perm q (leaked ++ rootsJoin tbl) →
      (finishModel g true q).queueAfter
        = (finishModel g true
            (calls.flatMap (fun c => c.flatMap id))).queueAfter) ∧
    (∀ (L : Nat) (call : List (List T)) (tbl : Table T) (q : List T),
      (∀ src ∈ call, src.length = L) →
      AddRun g true (List.replicate 20 none) call tbl [] →
      List.Perm q (rootsJoin tbl) →
      (finishModel g true q).queueAfter
        = (finishModel g true (call.flatMap id)).queueAfter) := by
  constructor
  · intro calls tbl leaked q hrun hq
    obtain ⟨gtbl, gleaked, grun, htbl, hleaked⟩ :=
      runAdds_lift g false hrun
        (tmap_replicate_none (CTree.eval g) 20).symm (calls_leafMap_eq g calls)
    have hflats := runAdds_flats grun
    rw [rootsJoin_replicate_none, msFlats_nil, add_zero, ← msFlats_append,
      gcalls_flats] at hflats
    have hperm : List.Perm ((gleaked ++ rootsJoin gtbl).flatMap CTree.flat)
        (calls.flatMap (fun c => c.flatMap id)) := by
      unfold msFlats at hflats
      exact Multiset.coe_eq_coe.mp hflats
    have hqmap : leaked ++ rootsJoin tbl
        = (gleaked ++ rootsJoin gtbl).map (CTree.eval g) := by
      rw [List.map_append, ← hleaked, htbl, rootsJoin_tmap]
    rw [queueAfter_eq_listFold, queueAfter_eq_listFold]
    congr 1
    rw [listFold_perm g hq, hqmap, ← listFold_flatten,
      listFold_perm g hperm]
  · intro L call tbl q hlens hrun hq
    obtain ⟨gtbl, gleak, grun, htbl, hleak⟩ :=
      addRun_lift g true hrun
        (tmap_replicate_none (CTree.eval g) 20).symm
        (map_map_eval_leaf g call).symm
    have hgleak : gleak = [] := List.map_eq_nil_iff.mp hleak.symm
    have hglens : ∀ gsrc ∈ call.map (List.map CTree.leaf), gsrc.length = L := by
      intro gsrc hg
      obtain ⟨src, hsrc, rfl⟩ := List.mem_map.mp hg
      rw [List.length_map]
      exact hlens src hsrc
    obtain ⟨hflats, _⟩ := addRun_flats_ordered grun hgleak
      (tableUniform_replicate_none L 20) hglens
    rw [rootsJoin_replicate_none, msFlats_nil, add_zero,
      gcall_flatMap_leaf, msFlats_leafMap] at hflats
    have hperm : List.Perm ((rootsJoin gtbl).flatMap CTree.flat)
        (call.flatMap id) := by
      unfold msFlats at hflats
      exact Multiset.coe_eq_coe.mp hflats
    have hqmap : rootsJoin tbl = (rootsJoin gtbl).map (CTree.eval g) := by
      rw [htbl, rootsJoin_tmap]
    rw [queueAfter_eq_listFold, queueAfter_eq_listFold]
    congr 1
    rw [listFold_perm g hq, hqmap, ← listFold_flatten,
      listFold_perm g hperm]

/-- Fresh table of the counterexample run. -/
def cexInit : Table ℕ := List.replicate 20 none

/-- Table after placing the stream `[1]` at level 0. -/
def cexT1 : Table ℕ := (extend cexInit 0).set 0 (some [1])

/-- Table after the occupant `[1]` is removed for combination. -/
def cexT1x : Table ℕ := (extend cexT1 0).set 0 none

/-- Final table of the counterexample run: the ordered node's output stream
`[3]` pends at level 1. -/
def cexTable : Table ℕ := (extend cexT1x 1).set 1 (some [3])

theorem cexPlace1 : PlaceRun (· + ·) true cexInit [1] 0 cexT1 [] :=
  .free cexInit [1] 0 (by decide)

theorem cexPlace3 : PlaceRun (· + ·) true cexT1x [3] 1 cexTable [] :=
  .free cexT1x [3] 1 (by decide)

theorem cexPlace2 : PlaceRun (· + ·) true cexT1 [2, 3] 0 cexTable [] :=
  .occupied cexT1 [2, 3] 0 [1] [] [1] [3] cexTable []
    (by decide)
    (.right 1 .nil)
    (show [3] = lockstep (· + ·) [1] [2, 3] from rfl)
    cexPlace3

theorem cexAdd : AddRun (· + ·) true cexInit [[1], [2, 3]] cexTable [] :=
  .cons cexInit cexT1 cexTable [1] [[2, 3]] [] [] cexPlace1
    (.cons cexT1 cexTable cexTable [2, 3] [] [] [] cexPlace2 (.nil cexTable))

theorem cexRun : RunAdds (· + ·) true cexInit [[[1], [2, 3]]] cexTable [] :=
  .cons cexInit cexTable cexTable [[1], [2, 3]] [] [] [] cexAdd
    (.nil cexTable)

/-- **C1 counterexample.**  The claim as stated quantifies over any sequence
of `Add` calls, with no restriction on the pairing discipline or stream
lengths.  Under `ordered = true`, one `Add` call with streams `[1]` and
`[2, 3]` and the combiner `+` is a complete whole-tree run: the ordered node
combines `1 + 2`, then reads its first input closed and exits without ever
reading `3`, so `Finish` delivers `3` while the fold of all input values is
`6`. -/
theorem waitForAllFold_cex :
    RunAdds (· + ·) true (List.replicate 20 none) [[[1], [2, 3]]]
        cexTable [] ∧
    List.Perm [3] ([] ++ rootsJoin cexTable) ∧
    (finishModel (· + ·) true [3]).queueAfter = [3] ∧
    (finishModel (· + ·) true
        ([[[1], [2, 3]]].flatMap (fun c => c.flatMap id))).queueAfter
      = [6] ∧
    ([3] : List ℕ) ≠ [6] := by
  refine ⟨cexRun, by decide, rfl, rfl, by decide⟩

/-- Table of the witness run: one unordered leaf stream `[7]`. -/
def witTable : Table ℕ := (extend (List.replicate 20 none) 0).set 0 (some [7])

/-- Witness for `waitForAllFold`: a single unordered `Add` of the one-leaf
stream `[7]`, whose drained output equals the fold of the inputs. -/
theorem waitForAllFold_witness :
    (finishModel (· + ·) true [7]).queueAfter
      = (finishModel (· + ·) true
          ([[[7]]].flatMap (fun c => c.flatMap id))).queueAfter :=
  (@waitForAllFold ℕ (· + ·) Nat.instAssociativeHAdd
    Nat.instCommutativeHAdd).1 [[[7]]] witTable [] [7]
    (.cons _ witTable witTable [[7]] [] [] []
      (.cons _ witTable witTable [7] [] [] []
        (.free _ [7] 0 (by decide)) (.nil witTable))
      (.nil witTable))
    (by decide)

end Treeduction
